import Mathlib

/-
Verification of the copyright-header inserter engine
(src/src/copyrightinserter.ts) against its specification.

Strings are embedded as lists of characters (`Str`).  The only line
terminator modelled is the newline character, matching the source's use
of split("\n") and of JavaScript regular expressions whose multiline
anchors are exercised here only on newline-separated text.  Case
folding (the regular expressions' ignore-case flag) is modelled by
mapping both sides through Char.toLower; all comment tokens and the
word Copyright that the code matches are ASCII, where this agrees with
JavaScript semantics.
-/

namespace CopyrightInserter

abbrev Str := List Char

/- ---------------------------------------------------------------
   String primitives used by the source
   --------------------------------------------------------------- -/

/-- JavaScript's toLowerCase, restricted to the simple per-character fold. -/
def lowerS (s : Str) : Str := s.map Char.toLower

/-- JavaScript's String.prototype.trimRight: remove trailing whitespace. -/
def trimRight (s : Str) : Str := (s.reverse.dropWhile Char.isWhitespace).reverse

/-- JavaScript's String.prototype.trimStart: remove leading whitespace. -/
def trimLeft (s : Str) : Str := s.dropWhile Char.isWhitespace

/-- `s.split("\n")`: split a string at newline characters.  Always
returns at least one (possibly empty) segment, like the JavaScript
original. -/
def splitOnNl : Str → List Str
  | [] => [[]]
  | c :: t =>
    if c = '\n' then [] :: splitOnNl t
    else
      match splitOnNl t with
      | [] => [[c]]
      | l :: ls => (c :: l) :: ls

/-- `lines.join("\n")`. -/
def intercalateNl : List Str → Str
  | [] => []
  | [l] => l
  | l :: l' :: ls => l ++ '\n' :: intercalateNl (l' :: ls)

/-- Concatenate lines, terminating each (including the last) with a
newline. -/
def joinNlTerm (ls : List Str) : Str := ls.foldr (fun l acc => l ++ '\n' :: acc) []

/-- The text of `document.getText(new Range(0, 0, n, 0))`: everything up
to the start of line `n`, i.e. up to and including the n-th newline, or
the whole text if there are fewer lines. -/
def takeLines : Nat → Str → Str
  | _, [] => []
  | 0, _ :: _ => []
  | n + 1, c :: t => if c = '\n' then c :: takeLines n t else c :: takeLines (n + 1) t

/-- All proper suffixes of `s` that begin immediately after a newline
character: the positions (other than the start of the string) where a
multiline-anchored `^` can match. -/
def lineStartSuffixes : Str → List Str
  | [] => []
  | c :: t => if c = '\n' then t :: lineStartSuffixes t else lineStartSuffixes t

/-- The suffixes of `s` at which a multiline `^` can match: the whole
string, and every suffix that follows a newline. -/
def startsOf (s : Str) : List Str := s :: lineStartSuffixes s

/-- Substring test: does `s` contain `p` as a contiguous substring? -/
def hasSubstr (p : Str) : Str → Bool
  | [] => p.isEmpty
  | c :: t => p.isPrefixOf (c :: t) || hasSubstr p t

/-- The longest newline-free prefix: what a JavaScript `.*` (without the
dot-all flag) can consume. -/
def takeNotNl (s : Str) : Str := s.takeWhile (fun c => c ≠ '\n')

/-- Number of newline characters in a string. -/
def countNl : Str → Nat
  | [] => 0
  | c :: t => (if c = '\n' then 1 else 0) + countNl t

/- ---------------------------------------------------------------
   Data model
   --------------------------------------------------------------- -/

/-- Holder and year inserted into a license template
(class CopyrightData, fields only). -/
structure CopyrightData where
  holder : Str
  year : Str
  deriving DecidableEq

/-- vscode.CommentRule as consumed by the source: an optional
line-comment token and an optional block-comment start/end pair. -/
structure CommentRule where
  lineComment : Option Str
  blockComment : Option (Str × Str)
  deriving DecidableEq

/-- The language configuration the source builds: language id, optional
first-line pattern (the host's regular expression, embedded as the
predicate `RegExp.test` computes on the first-line text), and the
comment rules. -/
structure LanguageConfig where
  id : Str
  firstLine : Option (Str → Bool)
  comments : CommentRule

/-- type ExtensionConfiguration from the source. -/
structure ExtensionConfiguration where
  license : Str
  useLineComment : Bool
  data : CopyrightData

/-- The raw workspace-configuration values as the host returns them:
`configView.get(...)` yields the configured string, or nothing when the
setting is unset. -/
structure RawSettings where
  license : Option Str
  useLineComment : Option Bool
  holder : Option Str
  year : Option Str

/- ---------------------------------------------------------------
   License template registry (readonly CopyrightMap)
   --------------------------------------------------------------- -/

/-- Tail of the apache template after the interpolated first line. -/
def apacheTail : Str :=
  ("\n\nLicensed under the Apache License, Version 2.0 (the \"License\");\nyou may not use this file except in compliance with the License.\nYou may obtain a copy of the License at\n\n     https://www.apache.org/licenses/LICENSE-2.0\n\nUnless required by applicable law or agreed to in writing, software\ndistributed under the License is distributed on an \"AS IS\" BASIS,\nWITHOUT WARRANTIES OR CONDITIONS OF ANY KIND, either express or implied.\nSee the License for the specific language governing permissions and\nlimitations under the License.".toList)

/-- The 'apache' template: Copyright {year} {holder}, then the fixed text. -/
def apacheTemplate (holder year : Str) : Str :=
  ("Copyright ".toList) ++ year ++ (" ".toList) ++ holder ++ apacheTail

/-- Tail of the bsd template after the interpolated first line. -/
def bsdTail : Str :=
  (" All rights reserved.\nUse of this source code is governed by a BSD-style\nlicense that can be found in the LICENSE file.".toList)

/-- The 'bsd' template: Copyright (c) {year} {holder} All rights reserved... -/
def bsdTemplate (holder year : Str) : Str :=
  ("Copyright (c) ".toList) ++ year ++ (" ".toList) ++ holder ++ bsdTail

/-- Tail of the mit template after the interpolated first line. -/
def mitTail : Str :=
  ("\n\nPermission is hereby granted, free of charge, to any person obtaining a copy of\nthis software and associated documentation files (the \"Software\"), to deal in\nthe Software without restriction, including without limitation the rights to\nuse, copy, modify, merge, publish, distribute, sublicense, and/or sell copies of\nthe Software, and to permit persons to whom the Software is furnished to do so,\nsubject to the following conditions:\n\nThe above copyright notice and this permission notice shall be included in all\ncopies or substantial portions of the Software.\n\nTHE SOFTWARE IS PROVIDED \"AS IS\", WITHOUT WARRANTY OF ANY KIND, EXPRESS OR\nIMPLIED, INCLUDING BUT NOT LIMITED TO THE WARRANTIES OF MERCHANTABILITY, FITNESS\nFOR A PARTICULAR PURPOSE AND NONINFRINGEMENT. IN NO EVENT SHALL THE AUTHORS OR\nCOPYRIGHT HOLDERS BE LIABLE FOR ANY CLAIM, DAMAGES OR OTHER LIABILITY, WHETHER\nIN AN ACTION OF CONTRACT, TORT OR OTHERWISE, ARISING FROM, OUT OF OR IN\nCONNECTION WITH THE SOFTWARE OR THE USE OR OTHER DEALINGS IN THE SOFTWARE.".toList)

/-- The 'mit' template: Copyright (c) {year} {holder}, then the fixed text. -/
def mitTemplate (holder year : Str) : Str :=
  ("Copyright (c) ".toList) ++ year ++ (" ".toList) ++ holder ++ mitTail

/-- Tail of the gpl3 template after the interpolated first line. -/
def gpl3Tail : Str :=
  ("\n\nThis program is free software: you can redistribute it and/or modify\nit under the terms of the GNU General Public License as published by\nthe Free Software Foundation, either version 3 of the License, or\n(at your option) any later version.\n\nThis program is distributed in the hope that it will be useful,\nbut WITHOUT ANY WARRANTY; without even the implied warranty of\nMERCHANTABILITY or FITNESS FOR A PARTICULAR PURPOSE.  See the\nGNU General Public License for more details.\n\nYou should have received a copy of the GNU General Public License\nalong with this program.  If not, see <https://www.gnu.org/licenses/>.".toList)

/-- The 'gpl3' template: Copyright (c) {year} {holder}, then the fixed text. -/
def gpl3Template (holder year : Str) : Str :=
  ("Copyright (c) ".toList) ++ year ++ (" ".toList) ++ holder ++ gpl3Tail

/-- readonly CopyrightMap: lookup of the supported license keys, exactly
the map literal of the source (Map.get returning undefined for unknown
keys). -/
def CopyrightMap (k : Str) : Option (Str → Str → Str) :=
  if k = ("apache".toList) then some apacheTemplate
  else if k = ("bsd".toList) then some bsdTemplate
  else if k = ("mit".toList) then some mitTemplate
  else if k = ("gpl3".toList) then some gpl3Template
  else none

/- ---------------------------------------------------------------
   getExtensionConfig (and the CopyrightData constructor)
   --------------------------------------------------------------- -/

/-- JavaScript `String(v)` applied to a possibly-undefined string:
an unset value stringifies to the literal text "undefined". -/
def jsString : Option Str → Str
  | none => ("undefined".toList)
  | some s => s

/-- JavaScript `v || d` for a possibly-undefined string: the default is
taken when the value is unset or the empty string. -/
def jsOrStr (v : Option Str) (d : Str) : Str :=
  match v with
  | none => d
  | some s => if s.isEmpty then d else s

/-- The CopyrightData constructor: fields default to "Google LLC" and
the current year, and a truthy (non-empty) argument overrides the
default. -/
def mkCopyrightData (currentYear : Str) (holder : Str) (year : Str) : CopyrightData :=
  { holder := if holder.isEmpty then ("Google LLC".toList) else holder
    year := if year.isEmpty then currentYear else year }

/-- getExtensionConfig: reads the four settings.  `currentYear` stands
for String((new Date()).getFullYear()).  Note the source passes
String(configView.get("copyrightInserter.holder")) to the constructor. -/
def getExtensionConfig (raw : RawSettings) (currentYear : Str) : ExtensionConfiguration :=
  { license := jsOrStr raw.license ("apache".toList)
    useLineComment := raw.useLineComment.getD false
    data := mkCopyrightData currentYear (jsString raw.holder) (jsOrStr raw.year currentYear) }

/- ---------------------------------------------------------------
   getLanguageConfigById: the cache-miss search over installed
   language definitions
   --------------------------------------------------------------- -/

/-- One entry of an extension's contributes.languages list: the
language id and its declared file extensions. -/
structure LanguageContribution where
  id : Str
  extensions : List Str
  deriving DecidableEq

/-- An installed host extension; `languages` is the
packageJSON.contributes.languages list when both fields are present. -/
structure HostExtension where
  languages : Option (List LanguageContribution)
  deriving DecidableEq

/-- The predicate of the `find` call in getLanguageConfigById:
it.id === id && (!fileExt || it.extensions.indexOf(fileExt) >= 0). -/
def languageMatches (id fileExt : Str) (it : LanguageContribution) : Bool :=
  decide (it.id = id) && (fileExt.isEmpty || decide (fileExt ∈ it.extensions))

/-- The cache-miss body of getLanguageConfigById: walk the installed
extensions in host order, skip those without language contributions,
and return the first contribution the predicate accepts; undefined when
none matches.  `fileExt` is the lowercased path.extname of the file
name. -/
def findLanguageData (exts : List HostExtension) (id fileExt : Str) :
    Option LanguageContribution :=
  match exts with
  | [] => none
  | e :: rest =>
    match e.languages with
    | none => findLanguageData rest id fileExt
    | some ls =>
      match ls.find? (languageMatches id fileExt) with
      | some d => some d
      | none => findLanguageData rest id fileExt

/-- Modelled from the claim wording for comparison: the first definition
whose id equals the language id and whose declared extension list is
empty or contains the file's extension. -/
def specClaimMatches (id fileExt : Str) (it : LanguageContribution) : Bool :=
  decide (it.id = id) && (it.extensions.isEmpty || decide (fileExt ∈ it.extensions))

/-- Modelled from the claim wording: resolver behaviour C2 asserts. -/
def specResolveClaim (exts : List HostExtension) (id fileExt : Str) :
    Option LanguageContribution :=
  (exts.flatMap (fun e => e.languages.getD [])).find? (specClaimMatches id fileExt)

/- ---------------------------------------------------------------
   loadLanguageConfiguration
   --------------------------------------------------------------- -/

/-- The error classification the loader distinguishes: a JSON syntax
error, or any other load error (carrying an identifying code so that
propagation is observable). -/
inductive JsError where
  | syntaxError
  | otherError (code : Nat)
  deriving DecidableEq

/-- Is this a line that the loader blanks out: its content after
trimStart() starts with the line-comment token. -/
def isLineCommentLine (l : Str) : Bool := ("//".toList).isPrefixOf (trimLeft l)

/-- The decommenting pass of loadLanguageConfiguration: split at
newlines, replace every line whose trimmed content starts with "//" by
a carriage-return character, and rejoin. -/
def decomment (content : Str) : Str :=
  intercalateNl ((splitOnNl content).map (fun l => if isLineCommentLine l then ("\r".toList) else l))

/-- loadLanguageConfiguration: try the strict parse (require) first; on
a syntax error reparse the decommented file content as strict JSON; any
other error propagates.  `strictParse` is the outcome of the strict
attempt and `jsonParse` the host's strict JSON parser. -/
def loadLanguageConfiguration {α : Type} (strictParse : Except JsError α)
    (fileContent : Str) (jsonParse : Str → Except JsError α) : Except JsError α :=
  match strictParse with
  | Except.ok c => Except.ok c
  | Except.error e =>
    match e with
    | JsError.syntaxError => jsonParse (decomment fileContent)
    | JsError.otherError n => Except.error (JsError.otherError n)

/- ---------------------------------------------------------------
   hasCopyright
   --------------------------------------------------------------- -/

/-- Lowercase of the literal the detection regexps end with. -/
def cpLower : Str := ("copyright".toList)

/-- The test of `new RegExp("^" + escaped(bs) + ".*Copyright", "mis")`
on a text: some multiline-anchor position is followed by the
block-comment opener (matched case-insensitively, the escaping having
made it literal), and the word copyright occurs anywhere later
(dot-all, case-insensitive). -/
def blockTest (bs : Str) (text : Str) : Bool :=
  (startsOf text).any fun suf =>
    (lowerS bs).isPrefixOf (lowerS suf) && hasSubstr cpLower ((lowerS suf).drop bs.length)

/-- The test of `new RegExp("^" + escaped(lc) + ".*Copyright", "mi")`
on a text: some multiline-anchor position is followed by the
line-comment token, and the word copyright occurs later without an
intervening newline (no dot-all flag). -/
def lineTest (lc : Str) (text : Str) : Bool :=
  (startsOf text).any fun suf =>
    (lowerS lc).isPrefixOf (lowerS suf) && hasSubstr cpLower (takeNotNl ((lowerS suf).drop lc.length))

/-- The body of hasCopyright once the first-ten-lines text has been
extracted: the block-comment test if an opener is present, then the
line-comment test if the token is truthy (present and non-empty). -/
def hasCopyrightText (c : CommentRule) (text : Str) : Bool :=
  (match c.blockComment with
   | some (bs, _) => blockTest bs text
   | none => false) ||
  (match c.lineComment with
   | some lc => if lc.isEmpty then false else lineTest lc text
   | none => false)

/-- hasCopyright(doc, c): scan the document's first ten lines. -/
def hasCopyright (docText : Str) (c : CommentRule) : Bool :=
  hasCopyrightText c (takeLines 10 docText)

/- ---------------------------------------------------------------
   calculateInsertLineIndex
   --------------------------------------------------------------- -/

/-- The document's line count (every vscode document has at least one
line; an empty text is one empty line). -/
def lineCount (docText : Str) : Nat := (splitOnNl docText).length

/-- calculateInsertLineIndex: start at 0; move to 1 when the language's
first-line pattern matches the first-line text, or the html doctype or
shellscript shebang override fires.  The first-line text is
getText(Range(0, 0, 1, 0)), which keeps the trailing newline when the
document has more than one line. -/
def calculateInsertLineIndex (docText : Str) (language : LanguageConfig) : Nat :=
  let firstLine := takeLines 1 docText
  let line : Nat :=
    match language.firstLine with
    | some re => if re firstLine then 1 else 0
    | none => 0
  let line := if language.id = ("html".toList) ∧ ("<!doctype".toList).isPrefixOf firstLine then 1 else line
  let line := if language.id = ("shellscript".toList) ∧ ("#!/".toList).isPrefixOf firstLine then 1 else line
  line

/- ---------------------------------------------------------------
   formatString / formatHeader
   --------------------------------------------------------------- -/

/-- The lines formatString emits, in order: the first wrapper line when
non-empty, then each body line prefixed and stripped of trailing
whitespace, then the last wrapper line when non-empty. -/
def formatLines (header first_line pre last_line : Str) : List Str :=
  (if first_line.isEmpty then [] else [first_line]) ++
  (splitOnNl header).map (fun line => trimRight (pre ++ line)) ++
  (if last_line.isEmpty then [] else [last_line])

/-- formatString: each emitted line followed by a newline, plus one
extra trailing newline (the blank separator line). -/
def formatString (header first_line pre last_line : Str) : Str :=
  joinNlTerm (formatLines header first_line pre last_line) ++ ['\n']

/-- The comment-wrapping dispatch of formatHeader, applied to the
already-rendered license body: banner style for a "/*" opener, plain
block wrapping otherwise; else line-comment prefixing when the token is
truthy; else the body unwrapped. -/
def formatHeaderBody (header : Str) (c : CommentRule) (useLineComment : Bool) : Str :=
  match c.blockComment, useLineComment with
  | some (bs, be), false =>
    if bs = ("/*".toList) then
      formatString header (bs ++ ("*".toList)) (" * ".toList) ((" ".toList) ++ be)
    else
      formatString header bs [] be
  | _, _ =>
    match c.lineComment with
    | some lc => if lc.isEmpty then formatString header [] [] []
                 else formatString header [] (lc ++ (" ".toList)) []
    | none => formatString header [] [] []

/-- formatHeader: render the template with the configured holder and
year, then wrap it. -/
def formatHeader (template : Str → Str → Str) (data : CopyrightData)
    (c : CommentRule) (useLineComment : Bool) : Str :=
  formatHeaderBody (template data.holder data.year) c useLineComment

/- ---------------------------------------------------------------
   The orchestrator: insertHeader
   --------------------------------------------------------------- -/

/-- Applying `b.insert(new Position(k, 0), t)` to a document: insert at
the start of line `k`; a position past the last line clamps to the end
of the document. -/
def applyEdit (docText : Str) (t : Str) (k : Nat) : Str :=
  let ls := splitOnNl docText
  if k = 0 then t ++ docText
  else if k < ls.length then
    intercalateNl (ls.take k) ++ '\n' :: (t ++ intercalateNl (ls.drop k))
  else docText ++ t

/-- The text insertHeader passes to the single edit, when the pipeline
reaches the edit: none when the license key is unknown, a header is
already detected, or the formatted header is falsy; otherwise the
formatted header, prefixed with one extra newline when the insertion
line equals the document's line count (the one-line-document case). -/
def insertedHeaderText (cfg : ExtensionConfiguration) (language : LanguageConfig)
    (docText : Str) : Option Str :=
  match CopyrightMap cfg.license with
  | none => none
  | some licenseTemplate =>
    if hasCopyright docText language.comments then none
    else
      let startLine := calculateInsertLineIndex docText language
      let header := formatHeader licenseTemplate cfg.data language.comments cfg.useLineComment
      if header.isEmpty then none
      else some (if startLine = lineCount docText then '\n' :: header else header)

/-- insertHeader: the full pipeline on one document (the host editor
lookup is outside the model; the document text is the input).  A run
that stops leaves the document unchanged; otherwise the single
insertion is applied at the computed line. -/
def insertHeader (cfg : ExtensionConfiguration) (language : LanguageConfig)
    (docText : Str) : Str :=
  match insertedHeaderText cfg language docText with
  | none => docText
  | some t => applyEdit docText t (calculateInsertLineIndex docText language)

/- ---------------------------------------------------------------
   Helper lemmas about the string primitives
   --------------------------------------------------------------- -/

theorem splitOnNl_ne_nil (s : Str) : splitOnNl s ≠ [] := by
  cases s with
  | nil => simp [splitOnNl]
  | cons c t =>
    simp only [splitOnNl]
    by_cases hc : c = '\n'
    · simp [hc]
    · simp only [hc, if_false]
      cases h : splitOnNl t <;> simp

theorem splitOnNl_no_nl (s : Str) : ∀ l ∈ splitOnNl s, '\n' ∉ l := by
  induction s with
  | nil => simp [splitOnNl]
  | cons c t ih =>
    intro l hl
    simp only [splitOnNl] at hl
    by_cases hc : c = '\n'
    · simp only [hc, if_true, List.mem_cons] at hl
      rcases hl with h | h
      · simp [h]
      · exact ih l h
    · simp only [hc, if_false] at hl
      cases h : splitOnNl t with
      | nil => exact absurd h (splitOnNl_ne_nil t)
      | cons l0 ls =>
        rw [h] at hl
        simp only [List.mem_cons] at hl
        rcases hl with rfl | hmem
        · intro hin
          rcases List.mem_cons.mp hin with rfl | hin0
          · exact hc rfl
          · exact ih l0 (by simp [h]) hin0
        · exact ih l (by simp [h, hmem])

theorem splitOnNl_of_prefix (p s : Str) (hnl : '\n' ∉ p) (hp : p <+: s) :
    ∃ t rest, splitOnNl s = (p ++ t) :: rest := by
  induction p generalizing s with
  | nil =>
    cases h : splitOnNl s with
    | nil => exact absurd h (splitOnNl_ne_nil s)
    | cons l0 ls => exact ⟨l0, ls, by simp [h]⟩
  | cons c p' ih =>
    obtain ⟨r, rfl⟩ := hp
    have hc : c ≠ '\n' := by
      intro h
      exact hnl (by simp [h])
    have hnl' : '\n' ∉ p' := fun h => hnl (by simp [h])
    obtain ⟨t, rest, ht⟩ := ih (p' ++ r) hnl' ⟨r, by simp⟩
    refine ⟨t, rest, ?_⟩
    simp only [List.cons_append, splitOnNl, hc, if_false, List.append_eq]
    rw [ht]

theorem splitOnNl_append_nl (x y : Str) (hx : '\n' ∉ x) :
    splitOnNl (x ++ '\n' :: y) = x :: splitOnNl y := by
  induction x with
  | nil => simp [splitOnNl]
  | cons c x' ih =>
    have hc : c ≠ '\n' := by
      intro h
      exact hx (by simp [h])
    have hx' : '\n' ∉ x' := fun h => hx (by simp [h])
    simp only [List.cons_append, splitOnNl, hc, if_false, List.append_eq]
    rw [ih hx']

theorem joinNlTerm_cons (x : Str) (xs : List Str) :
    joinNlTerm (x :: xs) = x ++ '\n' :: joinNlTerm xs := rfl

theorem joinNlTerm_append (a b : List Str) :
    joinNlTerm (a ++ b) = joinNlTerm a ++ joinNlTerm b := by
  induction a with
  | nil => simp [joinNlTerm]
  | cons x a' ih => simp [joinNlTerm_cons, ih]

theorem splitOnNl_joinNlTerm_append (ls : List Str) (r : Str)
    (h : ∀ l ∈ ls, '\n' ∉ l) :
    splitOnNl (joinNlTerm ls ++ r) = ls ++ splitOnNl r := by
  induction ls with
  | nil => simp [joinNlTerm]
  | cons x ls' ih =>
    have hx : '\n' ∉ x := h x (by simp)
    rw [joinNlTerm_cons, List.append_assoc, List.cons_append, splitOnNl_append_nl x _ hx,
      ih (fun l hl => h l (by simp [hl]))]
    rfl

theorem splitOnNl_of_no_nl (x : Str) (hx : '\n' ∉ x) : splitOnNl x = [x] := by
  induction x with
  | nil => simp [splitOnNl]
  | cons c x' ih =>
    have hc : c ≠ '\n' := by
      intro hcc
      exact hx (by simp [hcc])
    have hx' : '\n' ∉ x' := fun hh => hx (by simp [hh])
    simp only [splitOnNl, hc, if_false]
    rw [ih hx']

theorem splitOnNl_intercalateNl (ls : List Str) (hne : ls ≠ [])
    (h : ∀ l ∈ ls, '\n' ∉ l) : splitOnNl (intercalateNl ls) = ls := by
  induction ls with
  | nil => exact absurd rfl hne
  | cons x ls' ih =>
    cases ls' with
    | nil =>
      simp only [intercalateNl]
      exact splitOnNl_of_no_nl x (h x (by simp))
    | cons y ls'' =>
      have hx : '\n' ∉ x := h x (by simp)
      simp only [intercalateNl]
      rw [splitOnNl_append_nl x _ hx, ih (by simp) (fun l hl => h l (by simp [hl]))]

theorem countNl_append (a b : Str) : countNl (a ++ b) = countNl a + countNl b := by
  induction a with
  | nil => simp [countNl]
  | cons c a' ih => simp [countNl, ih]; omega

theorem countNl_eq_zero (p : Str) (h : '\n' ∉ p) : countNl p = 0 := by
  induction p with
  | nil => rfl
  | cons c t ih =>
    have hc : c ≠ '\n' := by
      intro hcc
      exact h (by simp [hcc])
    simp [countNl, hc, ih (fun hh => h (by simp [hh]))]

theorem splitOnNl_length (s : Str) : (splitOnNl s).length = countNl s + 1 := by
  induction s with
  | nil => simp [splitOnNl, countNl]
  | cons c t ih =>
    by_cases hc : c = '\n'
    · simp only [splitOnNl, hc, if_true, List.length_cons, countNl, if_pos rfl, ih]
      omega
    · simp only [splitOnNl, hc, if_false]
      cases h : splitOnNl t with
      | nil => exact absurd h (splitOnNl_ne_nil t)
      | cons l0 ls =>
        have hlen := ih
        rw [h] at hlen
        simp only [List.length_cons] at hlen ⊢
        simpa [countNl, hc] using hlen

theorem prefix_takeLines (p s : Str) (n : Nat) (hp : p <+: s) (hc : countNl p < n) :
    p <+: takeLines n s := by
  induction p generalizing s n with
  | nil => simp
  | cons c p' ih =>
    obtain ⟨r, rfl⟩ := hp
    have hn : ∃ m, n = m + 1 := by
      cases n with
      | zero => omega
      | succ m => exact ⟨m, rfl⟩
    obtain ⟨m, rfl⟩ := hn
    by_cases hcc : c = '\n'
    · have hcount : countNl p' < m := by
        have h1 : countNl (c :: p') = 1 + countNl p' := by simp [countNl, hcc]
        omega
      simp only [List.cons_append, takeLines, hcc, if_true]
      exact List.cons_prefix_cons.mpr ⟨rfl, ih (p' ++ r) m ⟨r, by simp⟩ hcount⟩
    · have hcount : countNl p' < m + 1 := by
        have h1 : countNl (c :: p') = countNl p' := by simp [countNl, hcc]
        omega
      simp only [List.cons_append, takeLines, hcc, if_false]
      exact List.cons_prefix_cons.mpr ⟨rfl, ih (p' ++ r) (m + 1) ⟨r, by simp⟩ hcount⟩

theorem dropWhile_append_cons_nonpos {α : Type} (p : α → Bool) (x : List α) (c : α)
    (hc : p c = false) (y : List α) :
    List.dropWhile p (x ++ c :: y) = List.dropWhile p x ++ c :: y := by
  induction x with
  | nil => simp [List.dropWhile, hc]
  | cons d x' ih => cases hd : p d <;> simp [List.dropWhile, hd, ih]

theorem trimRight_append_nonws (a b : Str) (c : Char) (hc : ¬ c.isWhitespace) :
    trimRight ((a ++ [c]) ++ b) = (a ++ [c]) ++ trimRight b := by
  unfold trimRight
  have h1 : ((a ++ [c]) ++ b).reverse = b.reverse ++ c :: a.reverse := by simp
  rw [h1, dropWhile_append_cons_nonpos _ _ _ (by simpa using hc) _]
  simp

theorem trimRight_sublist (s : Str) : trimRight s <+: s := by
  unfold trimRight
  conv_rhs => rw [← List.reverse_reverse s]
  have h := List.dropWhile_suffix (l := s.reverse) Char.isWhitespace
  exact List.reverse_prefix.mpr (by simpa using h)

theorem lowerS_append (a b : Str) : lowerS (a ++ b) = lowerS a ++ lowerS b := by
  simp [lowerS]

theorem lowerS_length (s : Str) : (lowerS s).length = s.length := by
  simp [lowerS]

theorem hasSubstr_iff (p s : Str) : hasSubstr p s = true ↔ p <:+: s := by
  induction s with
  | nil =>
    simp only [hasSubstr, List.isEmpty_iff]
    constructor
    · intro h
      simp [h]
    · intro h
      simpa using List.eq_nil_of_infix_nil h
  | cons c t ih =>
    simp only [hasSubstr, Bool.or_eq_true, List.isPrefixOf_iff_prefix, ih]
    rw [List.infix_cons_iff]

theorem mem_lineStartSuffixes (s suf : Str) :
    suf ∈ lineStartSuffixes s ↔ ∃ q, s = q ++ '\n' :: suf := by
  induction s with
  | nil => simp [lineStartSuffixes]
  | cons c t ih =>
    simp only [lineStartSuffixes]
    by_cases hc : c = '\n'
    · subst hc
      rw [if_pos rfl]
      constructor
      · intro hmem
        rcases List.mem_cons.mp hmem with heq | hmem'
        · exact ⟨[], by rw [heq]; rfl⟩
        · obtain ⟨q, hq⟩ := ih.mp hmem'
          exact ⟨'\n' :: q, by rw [hq]; rfl⟩
      · rintro ⟨q, hq⟩
        cases q with
        | nil =>
          simp only [List.nil_append, List.cons.injEq] at hq
          exact List.mem_cons.mpr (Or.inl hq.2.symm)
        | cons c' q' =>
          simp only [List.cons_append, List.cons.injEq] at hq
          exact List.mem_cons.mpr (Or.inr (ih.mpr ⟨q', hq.2⟩))
    · rw [if_neg hc, ih]
      constructor
      · rintro ⟨q, hq⟩
        exact ⟨c :: q, by rw [List.cons_append, hq]⟩
      · rintro ⟨q, hq⟩
        cases q with
        | nil =>
          simp only [List.nil_append, List.cons.injEq] at hq
          exact absurd hq.1 hc
        | cons c' q' =>
          simp only [List.cons_append, List.cons.injEq] at hq
          exact ⟨q', hq.2⟩

theorem infix_append_right (p x y : Str) (h : p <:+: x) : p <:+: x ++ y := by
  obtain ⟨s, t, rfl⟩ := h
  exact ⟨s, t ++ y, by simp⟩

/- ---------------------------------------------------------------
   Propositional reading of the two detection regular expressions
   --------------------------------------------------------------- -/

/-- `suf` is the part of `text` from some position where a multiline
`^` anchor can match: the start of the text, or just after a newline. -/
def LineStartAt (text pre suf : Str) : Prop :=
  text = pre ++ suf ∧ (pre = [] ∨ ∃ q, pre = q ++ ['\n'])

/-- What the block-comment detection pattern expresses: some line of
the text begins with the (escaped, hence literal) opener, compared
case-insensitively, and the word copyright occurs somewhere after it,
newlines included (dot-all). -/
def BlockMatch (bs text : Str) : Prop :=
  ∃ pre suf, LineStartAt text pre suf ∧ lowerS bs <+: lowerS suf ∧
    cpLower <:+: (lowerS suf).drop bs.length

/-- What the line-comment detection pattern expresses: some line of the
text begins with the (escaped, hence literal) token, compared
case-insensitively, and the word copyright occurs after it with no
intervening newline. -/
def LineMatch (lc text : Str) : Prop :=
  ∃ pre suf, LineStartAt text pre suf ∧ lowerS lc <+: lowerS suf ∧
    cpLower <:+: takeNotNl ((lowerS suf).drop lc.length)

theorem mem_startsOf_iff (text suf : Str) :
    suf ∈ startsOf text ↔ ∃ pre, LineStartAt text pre suf := by
  simp only [startsOf, List.mem_cons, mem_lineStartSuffixes, LineStartAt]
  constructor
  · rintro (rfl | ⟨q, hq⟩)
    · exact ⟨[], by simp⟩
    · refine ⟨q ++ ['\n'], ?_, Or.inr ⟨q, rfl⟩⟩
      rw [hq]
      simp
  · rintro ⟨pre, htext, (rfl | ⟨q, rfl⟩)⟩
    · exact Or.inl (by simpa using htext.symm)
    · refine Or.inr ⟨q, ?_⟩
      rw [htext]
      simp

theorem blockTest_iff (bs text : Str) :
    blockTest bs text = true ↔ BlockMatch bs text := by
  simp only [blockTest, List.any_eq_true, Bool.and_eq_true, List.isPrefixOf_iff_prefix,
    hasSubstr_iff, BlockMatch]
  constructor
  · rintro ⟨suf, hmem, hpre, hsub⟩
    obtain ⟨pre, hls⟩ := (mem_startsOf_iff text suf).mp hmem
    exact ⟨pre, suf, hls, hpre, hsub⟩
  · rintro ⟨pre, suf, hls, hpre, hsub⟩
    exact ⟨suf, (mem_startsOf_iff text suf).mpr ⟨pre, hls⟩, hpre, hsub⟩

theorem lineTest_iff (lc text : Str) :
    lineTest lc text = true ↔ LineMatch lc text := by
  simp only [lineTest, List.any_eq_true, Bool.and_eq_true, List.isPrefixOf_iff_prefix,
    hasSubstr_iff, LineMatch]
  constructor
  · rintro ⟨suf, hmem, hpre, hsub⟩
    obtain ⟨pre, hls⟩ := (mem_startsOf_iff text suf).mp hmem
    exact ⟨pre, suf, hls, hpre, hsub⟩
  · rintro ⟨pre, suf, hls, hpre, hsub⟩
    exact ⟨suf, (mem_startsOf_iff text suf).mpr ⟨pre, hls⟩, hpre, hsub⟩

theorem hasCopyrightText_iff (c : CommentRule) (text : Str) :
    hasCopyrightText c text = true ↔
      ((∃ bs be, c.blockComment = some (bs, be) ∧ BlockMatch bs text) ∨
       (∃ lc, c.lineComment = some lc ∧ lc ≠ [] ∧ LineMatch lc text)) := by
  rcases c with ⟨lcOpt, bcOpt⟩
  unfold hasCopyrightText
  simp only [Bool.or_eq_true]
  constructor
  · rintro (hb | hl)
    · cases bcOpt with
      | none => simp at hb
      | some p =>
        rcases p with ⟨bs, be⟩
        exact Or.inl ⟨bs, be, rfl, (blockTest_iff bs text).mp hb⟩
    · cases lcOpt with
      | none => simp at hl
      | some lc =>
        simp only at hl
        by_cases hempty : lc.isEmpty
        · rw [if_pos hempty] at hl
          exact absurd hl (by simp)
        · rw [if_neg hempty] at hl
          exact Or.inr ⟨lc, rfl, by simpa [List.isEmpty_iff] using hempty,
            (lineTest_iff lc text).mp hl⟩
  · rintro (⟨bs, be, hbc, hm⟩ | ⟨lc, hlc, hne, hm⟩)
    · left
      rw [show bcOpt = some (bs, be) from hbc]
      exact (blockTest_iff bs text).mpr hm
    · right
      rw [show lcOpt = some lc from hlc]
      simp only
      rw [if_neg (by simpa [List.isEmpty_iff] using hne)]
      exact (lineTest_iff lc text).mpr hm

/- ---------------------------------------------------------------
   Structural lemmas about the formatter
   --------------------------------------------------------------- -/

theorem joinNlTerm_ends_nl (ls : List Str) (h : ls ≠ []) :
    ∃ q, joinNlTerm ls = q ++ ['\n'] := by
  induction ls with
  | nil => exact absurd rfl h
  | cons x ls' ih =>
    cases ls' with
    | nil => exact ⟨x, by simp [joinNlTerm]⟩
    | cons y ls'' =>
      obtain ⟨q, hq⟩ := ih (by simp)
      refine ⟨x ++ '\n' :: q, ?_⟩
      rw [joinNlTerm_cons, hq]
      simp

theorem formatLines_ne_nil (hdr fl pre ll : Str) : formatLines hdr fl pre ll ≠ [] := by
  unfold formatLines
  intro h
  rcases List.append_eq_nil.mp h with ⟨h1, _⟩
  rcases List.append_eq_nil.mp h1 with ⟨_, hmap⟩
  exact splitOnNl_ne_nil hdr (List.map_eq_nil_iff.mp hmap)

theorem formatString_shape (hdr fl pre ll : Str) :
    ∃ p, formatString hdr fl pre ll = p ++ ('\n' :: '\n' :: []) := by
  obtain ⟨q, hq⟩ := joinNlTerm_ends_nl _ (formatLines_ne_nil hdr fl pre ll)
  refine ⟨q, ?_⟩
  unfold formatString
  rw [hq]
  simp

theorem formatHeaderBody_eq_formatString (hdr : Str) (c : CommentRule) (ulc : Bool) :
    ∃ fl pre ll, formatHeaderBody hdr c ulc = formatString hdr fl pre ll := by
  rcases c with ⟨lcOpt, bcOpt⟩
  cases bcOpt with
  | some p =>
    rcases p with ⟨bs, be⟩
    cases ulc with
    | false =>
      by_cases hbs : bs = ("/*".toList)
      · exact ⟨_, _, _, by unfold formatHeaderBody; dsimp only; rw [if_pos hbs]⟩
      · exact ⟨_, _, _, by unfold formatHeaderBody; dsimp only; rw [if_neg hbs]⟩
    | true =>
      cases lcOpt with
      | none => exact ⟨_, _, _, by unfold formatHeaderBody; dsimp only⟩
      | some lc =>
        by_cases hempty : lc.isEmpty
        · exact ⟨_, _, _, by unfold formatHeaderBody; dsimp only; rw [if_pos hempty]⟩
        · exact ⟨_, _, _, by unfold formatHeaderBody; dsimp only; rw [if_neg hempty]⟩
  | none =>
    cases lcOpt with
    | none => exact ⟨_, _, _, by unfold formatHeaderBody; dsimp only⟩
    | some lc =>
      by_cases hempty : lc.isEmpty
      · exact ⟨_, _, _, by unfold formatHeaderBody; dsimp only; rw [if_pos hempty]⟩
      · exact ⟨_, _, _, by unfold formatHeaderBody; dsimp only; rw [if_neg hempty]⟩

/- ---------------------------------------------------------------
   Claim C1
   --------------------------------------------------------------- -/

/-- C1, code_bug evidence: the claim says the CopyrightData used in the
output has holder "Google LLC" whenever the configured holder is unset
or empty, and a defaulted 4-digit year.  With the holder setting unset,
getExtensionConfig stringifies the unset value before the constructor's
truthiness check, so the holder used in the output is the literal text
"undefined", not "Google LLC" (the year default does apply).  This
theorem evaluates the embedded code at that failing input. -/
theorem C1_unset_holder_becomes_undefined :
    (getExtensionConfig ⟨none, none, none, none⟩ ("2025".toList)).data.holder
      = ("undefined".toList) ∧
    (getExtensionConfig ⟨none, none, none, none⟩ ("2025".toList)).data.year
      = ("2025".toList) ∧
    decide (("undefined".toList) = ("Google LLC".toList)) = false := by
  exact ⟨rfl, rfl, by decide⟩

/- ---------------------------------------------------------------
   Claim C2
   --------------------------------------------------------------- -/

/-- A language definition whose declared extension list is empty, used
to separate the claim's matching rule from the code's. -/
def c2Contribution : LanguageContribution := ⟨("x".toList), []⟩

/-- A host with a single installed extension contributing
c2Contribution. -/
def c2Extensions : List HostExtension := [⟨some [c2Contribution]⟩]

/-- C2 counterexample: for languageId "x" and file extension ".ts", the
claim's rule (empty declared extension list matches) selects the first
definition, but the code returns undefined: the code's condition tests
whether the file's extension is empty, not the declared list. -/
theorem C2_counterexample :
    specResolveClaim c2Extensions ("x".toList) (".ts".toList) = some c2Contribution ∧
    findLanguageData c2Extensions ("x".toList) (".ts".toList) = none := by
  exact ⟨by decide, by decide⟩

/-- C2 amended: on a cache miss the resolver returns the first
installed language definition (extensions in host order, each
extension's contributions in order) whose id equals the languageId and
for which the file's lowercased extension is empty or occurs in the
definition's declared extension list; undefined when none matches. -/
theorem C2_resolver_first_match (exts : List HostExtension) (id fileExt : Str) :
    findLanguageData exts id fileExt =
      (exts.flatMap (fun e => e.languages.getD [])).find? (languageMatches id fileExt) := by
  induction exts with
  | nil => rfl
  | cons e rest ih =>
    cases hL : e.languages with
    | none => simp [findLanguageData, hL, ih]
    | some ls =>
      simp only [findLanguageData, hL, List.flatMap_cons, Option.getD_some, List.find?_append]
      cases h : ls.find? (languageMatches id fileExt) with
      | none => simp [Option.or, ih]
      | some d => simp [Option.or]

/- ---------------------------------------------------------------
   Claim C7
   --------------------------------------------------------------- -/

/-- C7: the computed insertion line is 1 whenever the shellscript
shebang or html doctype override fires (regardless of the declared
first-line pattern); otherwise it is 1 exactly when the declared
pattern matches the first-line text, and 0 in all remaining cases. -/
theorem C7_insert_line_characterization (docText : Str) (language : LanguageConfig) :
    calculateInsertLineIndex docText language =
      if (language.id = ("shellscript".toList) ∧
            ("#!/".toList).isPrefixOf (takeLines 1 docText))
          ∨ (language.id = ("html".toList) ∧
            ("<!doctype".toList).isPrefixOf (takeLines 1 docText)) then 1
      else if (match language.firstLine with
               | some re => re (takeLines 1 docText)
               | none => false) = true then 1 else 0 := by
  unfold calculateInsertLineIndex
  dsimp only
  by_cases hsh : language.id = ("shellscript".toList) ∧
      ("#!/".toList).isPrefixOf (takeLines 1 docText)
  · rw [if_pos hsh, if_pos (Or.inl hsh)]
  · rw [if_neg hsh]
    by_cases hht : language.id = ("html".toList) ∧
        ("<!doctype".toList).isPrefixOf (takeLines 1 docText)
    · rw [if_pos hht, if_pos (Or.inr hht)]
    · rw [if_neg hht, if_neg (by rintro (h | h); exacts [hsh h, hht h])]
      cases language.firstLine with
      | none => rfl
      | some re =>
        by_cases hre : re (takeLines 1 docText) = true
        · simp [hre]
        · simp [hre]

/- ---------------------------------------------------------------
   Claim C8
   --------------------------------------------------------------- -/

/-- C8: loading a comment-configuration resource parses strictly first;
exactly on a syntax error the content is reparsed as strict JSON after
stripping every line whose trimmed content starts with "//" (each such
line's content is blanked to a carriage return, the line structure
being kept); any other load error propagates unchanged. -/
theorem C8_load_configuration_characterization (α : Type) (c : α) (content : Str)
    (parse : Str → Except JsError α) (n : Nat) :
    loadLanguageConfiguration (Except.ok c) content parse = Except.ok c ∧
    loadLanguageConfiguration (Except.error JsError.syntaxError) content parse
      = parse (decomment content) ∧
    loadLanguageConfiguration (Except.error (JsError.otherError n)) content parse
      = Except.error (JsError.otherError n) ∧
    splitOnNl (decomment content)
      = (splitOnNl content).map (fun l => if isLineCommentLine l then ("\r".toList) else l) := by
  refine ⟨rfl, rfl, rfl, ?_⟩
  unfold decomment
  apply splitOnNl_intercalateNl
  · intro h
    exact splitOnNl_ne_nil content (List.map_eq_nil_iff.mp h)
  · intro l hl
    rcases List.mem_map.mp hl with ⟨l0, hl0, rfl⟩
    by_cases hcl : isLineCommentLine l0
    · simp only [hcl, if_true]
      decide
    · simpa only [hcl, if_false] using splitOnNl_no_nl content l0 hl0

/- ---------------------------------------------------------------
   Claim C10
   --------------------------------------------------------------- -/

/-- C10: formatHeader is total on comment rules (including a rule with
neither kind, which emits the body unwrapped) and always returns a
non-empty string ending in a newline-terminated blank line; hence the
orchestrator's falsy-header check and its invalid-comments error branch
can never fire. -/
theorem C10_formatHeader_nonempty_blank_terminated (template : Str → Str → Str)
    (data : CopyrightData) (c : CommentRule) (ulc : Bool) :
    (formatHeader template data c ulc).isEmpty = false ∧
    ∃ p, formatHeader template data c ulc = p ++ ('\n' :: '\n' :: []) := by
  obtain ⟨fl, pre, ll, heq⟩ :=
    formatHeaderBody_eq_formatString (template data.holder data.year) c ulc
  obtain ⟨p, hp⟩ := formatString_shape (template data.holder data.year) fl pre ll
  have hform : formatHeader template data c ulc = p ++ ('\n' :: '\n' :: []) := by
    unfold formatHeader
    rw [heq, hp]
  refine ⟨?_, p, hform⟩
  rw [hform]
  cases p <;> simp

/- ---------------------------------------------------------------
   Claim C3
   --------------------------------------------------------------- -/

theorem no_nl_trimRight (x : Str) (hx : '\n' ∉ x) : '\n' ∉ trimRight x :=
  fun hmem => hx ((trimRight_sublist x).sublist.subset hmem)

/-- A constant license body containing a blank line, as every shipped
template does. -/
def c3Template : Str → Str → Str := fun _ _ => ("A\n\nB".toList)

/-- A block-comment style with the banner opener. -/
def c3Style : CommentRule := ⟨none, some (("/*".toList), ("*/".toList))⟩

/-- C3 counterexample: with block style start-slash-star and the line
assembly rule, a blank body line is emitted as " *" (the trailing space
of the prefix is stripped), so the emitted body line at index 2 of the
formatted header does not begin with " * ", contradicting the claim's
"each body line begins with space-star-space" conjunct. -/
theorem C3_counterexample :
    (splitOnNl (formatHeader c3Template ⟨("h".toList), ("2020".toList)⟩ c3Style false))[2]?
      = some (" *".toList) ∧
    (" * ".toList).isPrefixOf (" *".toList) = false := by
  exact ⟨by decide, by decide⟩

/-- C3 amended: for every license body, with block-comment pair
start-slash-star and star-slash-end and forceLineComment false, the
formatted header's lines are exactly: the line "/**", then for each
body line the line " * " + line with trailing whitespace stripped (so a
blank body line is emitted as " *"), then the line " */", then exactly
one blank line (the final empty segment is the end of the
newline-terminated text). -/
theorem C3_banner_format (template : Str → Str → Str) (data : CopyrightData)
    (lcOpt : Option Str) :
    splitOnNl (formatHeader template data ⟨lcOpt, some (("/*".toList), ("*/".toList))⟩ false)
      = ("/**".toList) :: ((splitOnNl (template data.holder data.year)).map
          (fun l => trimRight ((" * ".toList) ++ l)) ++ [(" */".toList), [], []]) := by
  unfold formatHeader formatHeaderBody
  dsimp only
  rw [if_pos rfl]
  rw [show ("/*".toList) ++ ("*".toList) = ("/**".toList) by decide,
    show (" ".toList) ++ ("*/".toList) = (" */".toList) by decide]
  unfold formatString formatLines
  rw [if_neg (by decide : ¬ (("/**".toList).isEmpty = true)),
    if_neg (by decide : ¬ ((" */".toList).isEmpty = true))]
  rw [show ([("/**".toList)] ++ (splitOnNl (template data.holder data.year)).map
        (fun line => trimRight ((" * ".toList) ++ line)) ++ [(" */".toList)])
      = (("/**".toList) :: ((splitOnNl (template data.holder data.year)).map
        (fun line => trimRight ((" * ".toList) ++ line)) ++ [(" */".toList)])) by simp]
  have hmem : ∀ l ∈ ("/**".toList) :: ((splitOnNl (template data.holder data.year)).map
      (fun line => trimRight ((" * ".toList) ++ line)) ++ [(" */".toList)]), '\n' ∉ l := by
    intro l hl
    rcases List.mem_cons.mp hl with rfl | hl
    · decide
    · rcases List.mem_append.mp hl with hl | hl
      · rcases List.mem_map.mp hl with ⟨l0, hl0, rfl⟩
        apply no_nl_trimRight
        intro hmem2
        rcases List.mem_append.mp hmem2 with hin | hin
        · revert hin
          decide
        · exact splitOnNl_no_nl _ l0 hl0 hin
      · rw [List.mem_singleton.mp hl]
        decide
  rw [splitOnNl_joinNlTerm_append _ _ hmem]
  rw [show splitOnNl ['\n'] = [[], []] from rfl]
  simp

/- ---------------------------------------------------------------
   Claim C6
   --------------------------------------------------------------- -/

theorem splitOnNl_append_no_nl (A B : Str) (hA : '\n' ∉ A) :
    splitOnNl (A ++ B) = (A ++ (splitOnNl B).headI) :: (splitOnNl B).tail := by
  induction A with
  | nil =>
    cases h : splitOnNl B with
    | nil => exact absurd h (splitOnNl_ne_nil B)
    | cons l0 ls => simp [h]
  | cons c A' ih =>
    have hc : c ≠ '\n' := fun hcc => hA (by simp [hcc])
    have hA' : '\n' ∉ A' := fun hh => hA (by simp [hh])
    simp only [List.cons_append, splitOnNl, hc, if_false, List.append_eq]
    rw [ih hA']

/-- Splitting an interpolated template first line followed by the fixed
tail: the first segment is the interpolated part of the first line plus
the tail's first line, the remaining segments are the tail's. -/
theorem template_split (pre y h tail : Str) (hpre : '\n' ∉ pre) (hy : '\n' ∉ y)
    (hh : '\n' ∉ h) :
    splitOnNl (pre ++ y ++ (" ".toList) ++ h ++ tail)
      = ((pre ++ y ++ (" ".toList) ++ h) ++ (splitOnNl tail).headI) :: (splitOnNl tail).tail := by
  have hA : '\n' ∉ pre ++ y ++ (" ".toList) ++ h := by
    intro hm
    rcases List.mem_append.mp hm with hm | hm
    · rcases List.mem_append.mp hm with hm | hm
      · rcases List.mem_append.mp hm with hm | hm
        · exact hpre hm
        · exact hy hm
      · revert hm
        decide
    · exact hh hm
  exact splitOnNl_append_no_nl (pre ++ y ++ (" ".toList) ++ h) tail hA

/-- C6: each supported template renders the literal license text with
holder and year substituted only into the first line (apache:
"Copyright {year} {holder}"; bsd, mit, gpl3: "Copyright (c) {year}
{holder}" first line, the bsd first line continuing with its fixed
text), the remaining lines being the fixed tail; the registry maps
exactly the four keys, and any other key yields NotFound. -/
theorem C6_template_rendering (h y k : Str) (hh : '\n' ∉ h) (hy : '\n' ∉ y) :
    (splitOnNl (apacheTemplate h y)).headI = ("Copyright ".toList) ++ y ++ (" ".toList) ++ h ∧
    (splitOnNl (apacheTemplate h y)).tail = (splitOnNl apacheTail).tail ∧
    (splitOnNl (bsdTemplate h y)).headI
      = (("Copyright (c) ".toList) ++ y ++ (" ".toList) ++ h) ++ (" All rights reserved.".toList) ∧
    (splitOnNl (bsdTemplate h y)).tail = (splitOnNl bsdTail).tail ∧
    (splitOnNl (mitTemplate h y)).headI = ("Copyright (c) ".toList) ++ y ++ (" ".toList) ++ h ∧
    (splitOnNl (mitTemplate h y)).tail = (splitOnNl mitTail).tail ∧
    (splitOnNl (gpl3Template h y)).headI = ("Copyright (c) ".toList) ++ y ++ (" ".toList) ++ h ∧
    (splitOnNl (gpl3Template h y)).tail = (splitOnNl gpl3Tail).tail ∧
    CopyrightMap ("apache".toList) = some apacheTemplate ∧
    CopyrightMap ("bsd".toList) = some bsdTemplate ∧
    CopyrightMap ("mit".toList) = some mitTemplate ∧
    CopyrightMap ("gpl3".toList) = some gpl3Template ∧
    (k ≠ ("apache".toList) → k ≠ ("bsd".toList) → k ≠ ("mit".toList) → k ≠ ("gpl3".toList) →
      CopyrightMap k = none) := by
  have hap := template_split ("Copyright ".toList) y h apacheTail (by decide) hy hh
  have hbs := template_split ("Copyright (c) ".toList) y h bsdTail (by decide) hy hh
  have hmi := template_split ("Copyright (c) ".toList) y h mitTail (by decide) hy hh
  have hgp := template_split ("Copyright (c) ".toList) y h gpl3Tail (by decide) hy hh
  refine ⟨?_, ?_, ?_, ?_, ?_, ?_, ?_, ?_, ?_, ?_, ?_, ?_, ?_⟩
  · unfold apacheTemplate
    rw [hap]
    rw [show (splitOnNl apacheTail).headI = ([] : Str) from rfl]
    exact List.append_nil _
  · unfold apacheTemplate
    rw [hap]
    rfl
  · unfold bsdTemplate
    rw [hbs]
    rw [show (splitOnNl bsdTail).headI = (" All rights reserved.".toList) from rfl]
    rfl
  · unfold bsdTemplate
    rw [hbs]
    rfl
  · unfold mitTemplate
    rw [hmi]
    rw [show (splitOnNl mitTail).headI = ([] : Str) from rfl]
    exact List.append_nil _
  · unfold mitTemplate
    rw [hmi]
    rfl
  · unfold gpl3Template
    rw [hgp]
    rw [show (splitOnNl gpl3Tail).headI = ([] : Str) from rfl]
    exact List.append_nil _
  · unfold gpl3Template
    rw [hgp]
    rfl
  · rfl
  · rfl
  · rfl
  · rfl
  · intro h1 h2 h3 h4
    unfold CopyrightMap
    rw [if_neg h1, if_neg h2, if_neg h3, if_neg h4]

/-- Witness for C6 at concrete holder, year and unknown key. -/
theorem C6_template_rendering_witness :
    (splitOnNl (apacheTemplate ("Google LLC".toList) ("2026".toList))).headI
      = ("Copyright ".toList) ++ ("2026".toList) ++ (" ".toList) ++ ("Google LLC".toList) ∧
    (splitOnNl (apacheTemplate ("Google LLC".toList) ("2026".toList))).tail
      = (splitOnNl apacheTail).tail ∧
    (splitOnNl (bsdTemplate ("Google LLC".toList) ("2026".toList))).headI
      = (("Copyright (c) ".toList) ++ ("2026".toList) ++ (" ".toList) ++ ("Google LLC".toList))
          ++ (" All rights reserved.".toList) ∧
    (splitOnNl (bsdTemplate ("Google LLC".toList) ("2026".toList))).tail
      = (splitOnNl bsdTail).tail ∧
    (splitOnNl (mitTemplate ("Google LLC".toList) ("2026".toList))).headI
      = ("Copyright (c) ".toList) ++ ("2026".toList) ++ (" ".toList) ++ ("Google LLC".toList) ∧
    (splitOnNl (mitTemplate ("Google LLC".toList) ("2026".toList))).tail
      = (splitOnNl mitTail).tail ∧
    (splitOnNl (gpl3Template ("Google LLC".toList) ("2026".toList))).headI
      = ("Copyright (c) ".toList) ++ ("2026".toList) ++ (" ".toList) ++ ("Google LLC".toList) ∧
    (splitOnNl (gpl3Template ("Google LLC".toList) ("2026".toList))).tail
      = (splitOnNl gpl3Tail).tail ∧
    CopyrightMap ("apache".toList) = some apacheTemplate ∧
    CopyrightMap ("bsd".toList) = some bsdTemplate ∧
    CopyrightMap ("mit".toList) = some mitTemplate ∧
    CopyrightMap ("gpl3".toList) = some gpl3Template ∧
    (("gpl2".toList) ≠ ("apache".toList) → ("gpl2".toList) ≠ ("bsd".toList) →
      ("gpl2".toList) ≠ ("mit".toList) → ("gpl2".toList) ≠ ("gpl3".toList) →
      CopyrightMap ("gpl2".toList) = none) :=
  C6_template_rendering ("Google LLC".toList) ("2026".toList) ("gpl2".toList)
    (by decide) (by decide)

/- ---------------------------------------------------------------
   Claim C5
   --------------------------------------------------------------- -/

/-- C5: hasCopyright on the first-ten-lines text returns true exactly
when (a) a block-comment opener is present and some line of the text
begins with the escaped opener with the word copyright occurring later,
the match spanning lines, case-insensitively, or (b) a truthy
(non-empty) line-comment token is present and some line begins with the
escaped token followed by copyright on the same line,
case-insensitively; it returns false when neither comment kind is
available or neither pattern matches. -/
theorem C5_hasCopyright_characterization (c : CommentRule) (docText : Str) :
    hasCopyright docText c = true ↔
      ((∃ bs be, c.blockComment = some (bs, be) ∧ BlockMatch bs (takeLines 10 docText)) ∨
       (∃ lc, c.lineComment = some lc ∧ lc ≠ [] ∧ LineMatch lc (takeLines 10 docText))) :=
  hasCopyrightText_iff c (takeLines 10 docText)

/- ---------------------------------------------------------------
   Claim C9
   --------------------------------------------------------------- -/

theorem calcIndex_le_one (docText : Str) (language : LanguageConfig) :
    calculateInsertLineIndex docText language ≤ 1 := by
  unfold calculateInsertLineIndex
  dsimp only
  split
  · exact le_refl 1
  · split
    · exact le_refl 1
    · cases language.firstLine with
      | none => exact Nat.zero_le 1
      | some re =>
        dsimp only
        split
        · exact le_refl 1
        · exact Nat.zero_le 1

theorem lineCount_pos (docText : Str) : 1 ≤ lineCount docText := by
  unfold lineCount
  cases h : splitOnNl docText with
  | nil => exact absurd h (splitOnNl_ne_nil docText)
  | cons a l => simp

/-- Configuration for the C9 counterexample. -/
def c9Cfg : ExtensionConfiguration := ⟨("bsd".toList), false, ⟨("h".toList), ("2020".toList)⟩⟩

/-- A language with a line comment and no first-line pattern. -/
def c9Lang : LanguageConfig := ⟨("foo".toList), none, ⟨some ("//".toList), none⟩⟩

/-- C9 counterexample: the document "x" is one-line-only, yet the text
the pipeline inserts is not prefixed with a newline, because the
computed insertion line is 0, not the line count 1: the prefix is not
applied to every one-line document, only when the insertion line equals
the line count. -/
theorem C9_counterexample :
    lineCount ("x".toList) = 1 ∧
    (insertedHeaderText c9Cfg c9Lang ("x".toList)).map
      (fun t => decide (t.head? = some '\n')) = some false := by
  exact ⟨by decide, by decide⟩

/-- C9 amended: whenever the pipeline reaches the edit, the inserted
text is the formatted header, prefixed with exactly one extra leading
newline precisely when the computed insertion line equals the
document's total line count; and that condition holds exactly for a
one-line-only document whose computed insertion line is 1. -/
theorem C9_newline_prefix_condition (cfg : ExtensionConfiguration)
    (language : LanguageConfig) (docText t : Str)
    (ht : insertedHeaderText cfg language docText = some t) :
    ∃ licenseTemplate, CopyrightMap cfg.license = some licenseTemplate ∧
      (calculateInsertLineIndex docText language = lineCount docText →
        t = '\n' :: formatHeader licenseTemplate cfg.data language.comments cfg.useLineComment) ∧
      (calculateInsertLineIndex docText language ≠ lineCount docText →
        t = formatHeader licenseTemplate cfg.data language.comments cfg.useLineComment) ∧
      (calculateInsertLineIndex docText language = lineCount docText ↔
        (lineCount docText = 1 ∧ calculateInsertLineIndex docText language = 1)) := by
  unfold insertedHeaderText at ht
  cases hcm : CopyrightMap cfg.license with
  | none =>
    rw [hcm] at ht
    exact absurd ht (by simp)
  | some f =>
    rw [hcm] at ht
    have ht2 : (if hasCopyright docText language.comments = true then none
        else
          if (formatHeader f cfg.data language.comments cfg.useLineComment).isEmpty = true
          then none
          else some (if calculateInsertLineIndex docText language = lineCount docText
            then '\n' :: formatHeader f cfg.data language.comments cfg.useLineComment
            else formatHeader f cfg.data language.comments cfg.useLineComment)) = some t := ht
    by_cases hhc : hasCopyright docText language.comments = true
    · rw [if_pos hhc] at ht2
      exact absurd ht2 (by simp)
    · rw [if_neg hhc] at ht2
      by_cases hemp : (formatHeader f cfg.data language.comments cfg.useLineComment).isEmpty
        = true
      · rw [if_pos hemp] at ht2
        exact absurd ht2 (by simp)
      · rw [if_neg hemp] at ht2
        have hts : (if calculateInsertLineIndex docText language = lineCount docText
            then '\n' :: formatHeader f cfg.data language.comments cfg.useLineComment
            else formatHeader f cfg.data language.comments cfg.useLineComment) = t :=
          Option.some.inj ht2
        refine ⟨f, rfl, ?_, ?_, ?_⟩
        · intro hk
          rw [← hts, if_pos hk]
        · intro hk
          rw [← hts, if_neg hk]
        · constructor
          · intro hk
            have h1 := calcIndex_le_one docText language
            have h2 := lineCount_pos docText
            omega
          · rintro ⟨h1, h2⟩
            rw [h1, h2]

/-- Configuration for the C9 witness. -/
def c9wCfg : ExtensionConfiguration := ⟨("bsd".toList), false, ⟨("h".toList), ("2020".toList)⟩⟩

/-- A shellscript language definition for the C9 witness. -/
def c9wLang : LanguageConfig := ⟨("shellscript".toList), none, ⟨some ("#".toList), none⟩⟩

/-- A one-line shebang document for the C9 witness. -/
def c9wDoc : Str := ("#!/bin/sh".toList)

/-- The text the pipeline inserts in the C9 witness scenario. -/
def c9wT : Str := '\n' :: formatHeader bsdTemplate c9wCfg.data c9wLang.comments false

/-- Witness for C9 on a one-line shebang document, where the insertion
line is 1 and equals the line count, so the newline prefix applies. -/
theorem C9_newline_prefix_condition_witness :
    ∃ licenseTemplate, CopyrightMap c9wCfg.license = some licenseTemplate ∧
      (calculateInsertLineIndex c9wDoc c9wLang = lineCount c9wDoc →
        c9wT = '\n' :: formatHeader licenseTemplate c9wCfg.data c9wLang.comments
          c9wCfg.useLineComment) ∧
      (calculateInsertLineIndex c9wDoc c9wLang ≠ lineCount c9wDoc →
        c9wT = formatHeader licenseTemplate c9wCfg.data c9wLang.comments
          c9wCfg.useLineComment) ∧
      (calculateInsertLineIndex c9wDoc c9wLang = lineCount c9wDoc ↔
        (lineCount c9wDoc = 1 ∧ calculateInsertLineIndex c9wDoc c9wLang = 1)) :=
  C9_newline_prefix_condition c9wCfg c9wLang c9wDoc c9wT (by decide)

/- ---------------------------------------------------------------
   Claim C4: supporting lemmas
   --------------------------------------------------------------- -/

theorem prefix_of_decide (p q : Str) (h : p.isPrefixOf q = true) : p <+: q :=
  List.isPrefixOf_iff_prefix.mp h

/-- Build the block-comment match evidence from a decomposition of the
scanned text: an anchor decomposition whose suffix starts with a head
containing the opener as a case-insensitive prefix and the word
copyright within reach of the dot-all tail. -/
theorem BlockMatch_of_parts (bs head R W pre0 : Str)
    (hW : W = pre0 ++ (head ++ R))
    (hpre : pre0 = [] ∨ ∃ q, pre0 = q ++ ['\n'])
    (hlen : bs.length ≤ head.length)
    (hpref : lowerS bs <+: lowerS head)
    (hinf : cpLower <:+: (lowerS head).drop bs.length) :
    BlockMatch bs W := by
  refine ⟨pre0, head ++ R, ⟨hW, hpre⟩, ?_, ?_⟩
  · rw [lowerS_append]
    exact hpref.trans (List.prefix_append _ _)
  · rw [lowerS_append,
      List.drop_append_of_le_length (by simpa [lowerS_length] using hlen)]
    exact infix_append_right _ _ _ hinf

/-- Build the line-comment match evidence: the suffix's head carries
the token followed, with no intervening newline, by the word copyright. -/
theorem LineMatch_of_parts (lc head mid after R W pre0 : Str)
    (hW : W = pre0 ++ (head ++ R))
    (hpre : pre0 = [] ∨ ∃ q, pre0 = q ++ ['\n'])
    (hlen : lc.length ≤ head.length)
    (hpref : lowerS lc <+: lowerS head)
    (hdrop : (lowerS head).drop lc.length = (mid ++ cpLower) ++ after)
    (hnl : '\n' ∉ mid ++ cpLower) :
    LineMatch lc W := by
  refine ⟨pre0, head ++ R, ⟨hW, hpre⟩, ?_, ?_⟩
  · rw [lowerS_append]
    exact hpref.trans (List.prefix_append _ _)
  · rw [lowerS_append,
      List.drop_append_of_le_length (by simpa [lowerS_length] using hlen), hdrop]
    unfold takeNotNl
    rw [List.append_assoc, List.takeWhile_append_of_pos (by
      intro a ha
      simp only [decide_eq_true_eq]
      intro haeq
      exact hnl (haeq ▸ ha))]
    exact ⟨mid, List.takeWhile (fun c => decide (c ≠ '\n')) (after ++ lowerS R), rfl⟩

/-- Decomposing formatString around the first emitted body line. -/
theorem formatString_decomp (body fl pre ll b1 : Str) (rest : List Str)
    (hsplit : splitOnNl body = b1 :: rest) :
    ∃ K, formatString body fl pre ll
      = (if fl.isEmpty then [] else fl ++ ['\n']) ++ (trimRight (pre ++ b1) ++ '\n' :: K) := by
  unfold formatString formatLines
  rw [hsplit]
  by_cases hfl : fl.isEmpty = true
  · rw [if_pos hfl, if_pos hfl]
    refine ⟨joinNlTerm ((rest.map fun line => trimRight (pre ++ line)) ++
      (if ll.isEmpty then [] else [ll])) ++ ['\n'], ?_⟩
    simp [joinNlTerm_cons, List.append_assoc]
  · rw [if_neg hfl, if_neg hfl]
    refine ⟨joinNlTerm ((rest.map fun line => trimRight (pre ++ line)) ++
      (if ll.isEmpty then [] else [ll])) ++ ['\n'], ?_⟩
    simp [joinNlTerm_cons, List.append_assoc]

/-- The first body line's prefixed-and-trimmed form, when the body
starts with the word Copyright: trimming cannot reach across the
non-whitespace final letter of the literal. -/
theorem trimRight_pre_copyright (pre t1 : Str) :
    trimRight ((pre ++ (" ".toList)) ++ (("Copyright".toList) ++ t1))
      = (pre ++ (" Copyright".toList)) ++ trimRight t1 := by
  have h1 : (pre ++ (" ".toList)) ++ (("Copyright".toList) ++ t1)
      = ((pre ++ (" Copyrigh".toList)) ++ ['t']) ++ t1 := by
    simp only [List.append_assoc]
    rfl
  rw [h1, trimRight_append_nonws _ _ 't' (by decide)]
  simp only [List.append_assoc]
  rfl

theorem trimRight_copyright (t1 : Str) :
    trimRight (("Copyright".toList) ++ t1) = ("Copyright".toList) ++ trimRight t1 := by
  have h1 : ("Copyright".toList) ++ t1 = ((("Copyrigh".toList) ++ ['t'])) ++ t1 := by
    simp only [List.append_assoc]
    rfl
  rw [h1, trimRight_append_nonws _ _ 't' (by decide)]
  simp only [List.append_assoc]
  rfl

theorem copyright_prefix_template (pre y h tail : Str)
    (hp : ("Copyright".toList).isPrefixOf pre = true) :
    ("Copyright".toList) <+: pre ++ y ++ (" ".toList) ++ h ++ tail := by
  have p1 : pre <+: pre ++ y ++ (" ".toList) ++ h ++ tail := by
    have hpa := List.prefix_append pre (y ++ ((" ".toList) ++ (h ++ tail)))
    simp only [List.append_assoc]
    exact hpa
  exact (prefix_of_decide _ _ hp).trans p1

/-- Every registered template's rendering starts with the word
Copyright, whatever the holder and year. -/
theorem copyrightMap_body_prefix (k : Str) (f : Str → Str → Str)
    (hf : CopyrightMap k = some f) (h y : Str) :
    ("Copyright".toList) <+: f h y := by
  unfold CopyrightMap at hf
  by_cases h1 : k = ("apache".toList)
  · rw [if_pos h1] at hf
    rw [← Option.some.inj hf]
    exact copyright_prefix_template _ y h apacheTail (by decide)
  · rw [if_neg h1] at hf
    by_cases h2 : k = ("bsd".toList)
    · rw [if_pos h2] at hf
      rw [← Option.some.inj hf]
      exact copyright_prefix_template _ y h bsdTail (by decide)
    · rw [if_neg h2] at hf
      by_cases h3 : k = ("mit".toList)
      · rw [if_pos h3] at hf
        rw [← Option.some.inj hf]
        exact copyright_prefix_template _ y h mitTail (by decide)
      · rw [if_neg h3] at hf
        by_cases h4 : k = ("gpl3".toList)
        · rw [if_pos h4] at hf
          rw [← Option.some.inj hf]
          exact copyright_prefix_template _ y h gpl3Tail (by decide)
        · rw [if_neg h4] at hf
          exact absurd hf (by simp)

/-- Detection from a short prefix: if the document decomposes as an
anchor-ending prefix, a head and a remainder, the prefix and head
together span at most ten lines, and any window of that shape matches,
then the first-ten-lines scan reports a header. -/
theorem hasCopyright_of_head (c : CommentRule) (doc pre0 head Rb : Str)
    (hdoc : doc = pre0 ++ (head ++ Rb))
    (hcnt : countNl pre0 + countNl head ≤ 9)
    (hmatch : ∀ W R2, W = pre0 ++ (head ++ R2) → hasCopyrightText c W = true) :
    hasCopyright doc c = true := by
  unfold hasCopyright
  have hP : (pre0 ++ head) <+: doc := ⟨Rb, by rw [hdoc]; simp [List.append_assoc]⟩
  have hPt : (pre0 ++ head) <+: takeLines 10 doc := by
    apply prefix_takeLines _ _ 10 hP
    rw [countNl_append]
    omega
  obtain ⟨R2, hW⟩ := hPt
  exact hmatch _ R2 (by rw [← hW]; simp [List.append_assoc])

/-- The central step of the idempotence argument: after the formatter
wrapped the rendered body (which starts with the word Copyright) in a
style the detector checks — a truthy line-comment token, or any block
style when line comments are not forced — the detector reports a
header on every document of the shape prefix ++ formatted ++ rest, the
prefix being empty or newline-terminated and at most one line long,
provided the tokens used contain no newline. -/
theorem hasCopyright_after_insert (c : CommentRule) (ulc : Bool) (body pre0 R : Str)
    (hpre : pre0 = [] ∨ ∃ q, pre0 = q ++ ['\n'])
    (hcount : countNl pre0 ≤ 1)
    (hbody : ("Copyright".toList) <+: body)
    (hwrap : (∃ lc, c.lineComment = some lc ∧ lc ≠ []) ∨
      (ulc = false ∧ c.blockComment.isSome = true))
    (hlcnl : ∀ lc, c.lineComment = some lc → '\n' ∉ lc)
    (hbsnl : ∀ bs be, c.blockComment = some (bs, be) → '\n' ∉ bs) :
    hasCopyright (pre0 ++ (formatHeaderBody body c ulc ++ R)) c = true := by
  obtain ⟨t1, rest, hsplit⟩ := splitOnNl_of_prefix ("Copyright".toList) body (by decide) hbody
  rcases c with ⟨lcOpt, bcOpt⟩
  by_cases hblock : (∃ bs be, bcOpt = some (bs, be)) ∧ ulc = false
  · obtain ⟨⟨bs, be, rfl⟩, rfl⟩ := hblock
    have hbsnl' : '\n' ∉ bs := hbsnl bs be rfl
    have hfb : formatHeaderBody body ⟨lcOpt, some (bs, be)⟩ false
        = if bs = ("/*".toList) then
            formatString body (bs ++ ("*".toList)) (" * ".toList) ((" ".toList) ++ be)
          else formatString body bs [] be := rfl
    by_cases hbs : bs = ("/*".toList)
    · subst hbs
      rw [hfb, if_pos rfl]
      obtain ⟨K, hK⟩ := formatString_decomp body (("/*".toList) ++ ("*".toList))
        (" * ".toList) ((" ".toList) ++ be) _ rest hsplit
      have hKs : formatString body (("/*".toList) ++ ("*".toList)) (" * ".toList)
          ((" ".toList) ++ be)
          = ("/**\n * Copyright".toList) ++ (trimRight t1 ++ ('\n' :: K)) := by
        rw [hK, if_neg (by decide)]
        rw [show (" * ".toList) = (" *".toList) ++ (" ".toList) by decide,
          trimRight_pre_copyright (" *".toList) t1]
        simp only [List.append_assoc, List.cons_append, List.nil_append]
        rfl
      rw [hKs]
      apply hasCopyright_of_head _ _ pre0 ("/**\n * Copyright".toList)
        ((trimRight t1 ++ ('\n' :: K)) ++ R)
      · simp [List.append_assoc]
      · have : countNl ("/**\n * Copyright".toList) = 1 := by decide
        omega
      · intro W R2 hWeq
        apply (hasCopyrightText_iff _ _).mpr
        left
        refine ⟨("/*".toList), be, rfl, ?_⟩
        exact BlockMatch_of_parts ("/*".toList) ("/**\n * Copyright".toList) R2 W pre0
          hWeq hpre (by decide) (prefix_of_decide _ _ (by decide))
          ((hasSubstr_iff _ _).mp (by decide))
    · rw [hfb, if_neg hbs]
      obtain ⟨K, hK⟩ := formatString_decomp body bs [] be _ rest hsplit
      by_cases hbse : bs.isEmpty = true
      · have hbsnil : bs = [] := List.isEmpty_iff.mp hbse
        subst hbsnil
        have hKs : formatString body [] [] be
            = ("Copyright".toList) ++ (trimRight t1 ++ ('\n' :: K)) := by
          rw [hK, if_pos (show (List.isEmpty ([] : Str)) = true from rfl)]
          simp only [List.nil_append]
          rw [trimRight_copyright]
          simp [List.append_assoc]
        rw [hKs]
        apply hasCopyright_of_head _ _ pre0 ("Copyright".toList)
          ((trimRight t1 ++ ('\n' :: K)) ++ R)
        · simp [List.append_assoc]
        · have : countNl ("Copyright".toList) = 0 := by decide
          omega
        · intro W R2 hWeq
          apply (hasCopyrightText_iff _ _).mpr
          left
          refine ⟨[], be, rfl, ?_⟩
          exact BlockMatch_of_parts [] ("Copyright".toList) R2 W pre0
            hWeq hpre (by decide) (List.nil_prefix)
            ((hasSubstr_iff _ _).mp (by decide))
      · have hKs : formatString body bs [] be
            = (bs ++ ('\n' :: ("Copyright".toList))) ++ (trimRight t1 ++ ('\n' :: K)) := by
          rw [hK, if_neg hbse]
          simp only [List.nil_append]
          rw [trimRight_copyright]
          simp [List.append_assoc]
        rw [hKs]
        apply hasCopyright_of_head _ _ pre0 (bs ++ ('\n' :: ("Copyright".toList)))
          ((trimRight t1 ++ ('\n' :: K)) ++ R)
        · simp [List.append_assoc]
        · have h1 : countNl (bs ++ ('\n' :: ("Copyright".toList)))
              = countNl bs + countNl ('\n' :: ("Copyright".toList)) := countNl_append _ _
          have h2 : countNl bs = 0 := countNl_eq_zero bs hbsnl'
          have h3 : countNl ('\n' :: ("Copyright".toList)) = 1 := by decide
          omega
        · intro W R2 hWeq
          apply (hasCopyrightText_iff _ _).mpr
          left
          refine ⟨bs, be, rfl, ?_⟩
          apply BlockMatch_of_parts bs (bs ++ ('\n' :: ("Copyright".toList))) R2 W pre0
            hWeq hpre (by rw [List.length_append]; omega)
            (by rw [lowerS_append]; exact List.prefix_append _ _)
          have hdrop : (lowerS (bs ++ ('\n' :: ("Copyright".toList)))).drop bs.length
              = lowerS ('\n' :: ("Copyright".toList)) := by
            rw [lowerS_append, show bs.length = (lowerS bs).length by rw [lowerS_length]]
            exact List.drop_left _ _
          rw [hdrop, show lowerS ('\n' :: ("Copyright".toList)) = '\n' :: cpLower by decide]
          exact ⟨['\n'], [], by simp⟩
  · have hlc : ∃ lc, lcOpt = some lc ∧ lc ≠ [] := by
      rcases hwrap with hw | ⟨hu, hb⟩
      · exact hw
      · exfalso
        apply hblock
        refine ⟨?_, hu⟩
        rcases Option.isSome_iff_exists.mp hb with ⟨⟨bs, be⟩, hbc⟩
        exact ⟨bs, be, hbc⟩
    obtain ⟨lc, rfl, hlcne⟩ := hlc
    have hlcnl' : '\n' ∉ lc := hlcnl lc rfl
    have hfb : formatHeaderBody body ⟨some lc, bcOpt⟩ ulc
        = formatString body [] (lc ++ (" ".toList)) [] := by
      unfold formatHeaderBody
      rcases bcOpt with _ | ⟨bs, be⟩
      · dsimp only
        rw [if_neg (by simpa [List.isEmpty_iff] using hlcne)]
      · cases ulc with
        | true =>
          dsimp only
          rw [if_neg (by simpa [List.isEmpty_iff] using hlcne)]
        | false => exact absurd ⟨⟨bs, be, rfl⟩, rfl⟩ hblock
    rw [hfb]
    obtain ⟨K, hK⟩ := formatString_decomp body [] (lc ++ (" ".toList)) [] _ rest hsplit
    have hKs : formatString body [] (lc ++ (" ".toList)) []
        = (lc ++ (" Copyright".toList)) ++ (trimRight t1 ++ ('\n' :: K)) := by
      rw [hK, if_pos (show (List.isEmpty ([] : Str)) = true from rfl),
        trimRight_pre_copyright lc t1]
      simp [List.append_assoc]
    rw [hKs]
    apply hasCopyright_of_head _ _ pre0 (lc ++ (" Copyright".toList))
      ((trimRight t1 ++ ('\n' :: K)) ++ R)
    · simp [List.append_assoc]
    · have h1 : countNl (lc ++ (" Copyright".toList))
          = countNl lc + countNl (" Copyright".toList) := countNl_append _ _
      have h2 : countNl lc = 0 := countNl_eq_zero lc hlcnl'
      have h3 : countNl (" Copyright".toList) = 0 := by decide
      omega
    · intro W R2 hWeq
      apply (hasCopyrightText_iff _ _).mpr
      right
      refine ⟨lc, rfl, hlcne, ?_⟩
      apply LineMatch_of_parts lc (lc ++ (" Copyright".toList)) [' '] [] R2 W pre0
        hWeq hpre (by rw [List.length_append]; omega)
        (by rw [lowerS_append]; exact List.prefix_append _ _)
      · have hdrop : (lowerS (lc ++ (" Copyright".toList))).drop lc.length
            = lowerS (" Copyright".toList) := by
          rw [lowerS_append, show lc.length = (lowerS lc).length by rw [lowerS_length]]
          exact List.drop_left _ _
        rw [hdrop]
        decide
      · decide

/-- Configuration for the C4 counterexample. -/
def c4Cfg : ExtensionConfiguration := ⟨("bsd".toList), false, ⟨("h".toList), ("2020".toList)⟩⟩

/-- A language whose comment style defines neither kind: the
formatter's degenerate fallback emits the body unwrapped. -/
def c4Lang : LanguageConfig := ⟨("foo".toList), none, ⟨none, none⟩⟩

/-- C4 counterexample: with a comment style defining neither comment
kind, the first run inserts the header unwrapped, the detector (which
only ever matches behind a comment token) cannot see it, and the
second run inserts again: running the pipeline twice differs from
running it once. -/
theorem C4_counterexample :
    decide (insertHeader c4Cfg c4Lang (insertHeader c4Cfg c4Lang ("x".toList))
      = insertHeader c4Cfg c4Lang ("x".toList)) = false := by decide

/-- C4 amended: running the full pipeline twice yields the same
document as running it once, provided the comment style is one the
formatter wraps with and the detector checks: a truthy (non-empty)
line-comment token is present, or a block-comment style is present
with line comments not forced — and the tokens used contain no newline
character.  (In the remaining degenerate cases the header is emitted
without any comment wrapping and the second run can insert again.) -/
theorem C4_pipeline_idempotent (cfg : ExtensionConfiguration) (language : LanguageConfig)
    (docText : Str)
    (hwrap : (∃ lc, language.comments.lineComment = some lc ∧ lc ≠ []) ∨
      (cfg.useLineComment = false ∧ language.comments.blockComment.isSome = true))
    (hlcnl : ∀ lc, language.comments.lineComment = some lc → '\n' ∉ lc)
    (hbsnl : ∀ bs be, language.comments.blockComment = some (bs, be) → '\n' ∉ bs) :
    insertHeader cfg language (insertHeader cfg language docText)
      = insertHeader cfg language docText := by
  cases hih : insertedHeaderText cfg language docText with
  | none =>
    have h1 : insertHeader cfg language docText = docText := by
      unfold insertHeader
      rw [hih]
    rw [h1]
    exact h1
  | some t =>
    have hihOrig : insertedHeaderText cfg language docText = some t := hih
    unfold insertedHeaderText at hih
    cases hcm : CopyrightMap cfg.license with
    | none =>
      rw [hcm] at hih
      exact absurd hih (by simp)
    | some f =>
      rw [hcm] at hih
      have hih2 : (if hasCopyright docText language.comments = true then none
          else
            if (formatHeader f cfg.data language.comments cfg.useLineComment).isEmpty = true
            then none
            else some (if calculateInsertLineIndex docText language = lineCount docText
              then '\n' :: formatHeader f cfg.data language.comments cfg.useLineComment
              else formatHeader f cfg.data language.comments cfg.useLineComment)) = some t := hih
      by_cases hhc : hasCopyright docText language.comments = true
      · rw [if_pos hhc] at hih2
        exact absurd hih2 (by simp)
      · rw [if_neg hhc] at hih2
        by_cases hemp : (formatHeader f cfg.data language.comments
            cfg.useLineComment).isEmpty = true
        · rw [if_pos hemp] at hih2
          exact absurd hih2 (by simp)
        · rw [if_neg hemp] at hih2
          have ht := Option.some.inj hih2
          have hrun1 : insertHeader cfg language docText
              = applyEdit docText t (calculateInsertLineIndex docText language) := by
            unfold insertHeader
            rw [hihOrig]
          have hbodyp : ("Copyright".toList) <+: f cfg.data.holder cfg.data.year :=
            copyrightMap_body_prefix _ _ hcm _ _
          have hhdr : formatHeader f cfg.data language.comments cfg.useLineComment
              = formatHeaderBody (f cfg.data.holder cfg.data.year) language.comments
                cfg.useLineComment := rfl
          have hk1 := calcIndex_le_one docText language
          have hlcp := lineCount_pos docText
          have hdet : hasCopyright
              (applyEdit docText t (calculateInsertLineIndex docText language))
              language.comments = true := by
            rcases Nat.lt_or_ge (calculateInsertLineIndex docText language) 1 with hk | hk
            · have hk0 : calculateInsertLineIndex docText language = 0 := by omega
              have hkne : calculateInsertLineIndex docText language ≠ lineCount docText := by
                omega
              rw [if_neg hkne] at ht
              rw [hk0]
              have happ : applyEdit docText t 0 = t ++ docText := by
                unfold applyEdit
                rw [if_pos rfl]
              rw [happ, ← ht, hhdr]
              have hmain := hasCopyright_after_insert language.comments cfg.useLineComment
                (f cfg.data.holder cfg.data.year) [] docText (Or.inl rfl) (by decide)
                hbodyp hwrap hlcnl hbsnl
              simpa using hmain
            · have hk1' : calculateInsertLineIndex docText language = 1 := by omega
              by_cases hone : lineCount docText = 1
              · have hkeq : calculateInsertLineIndex docText language = lineCount docText := by
                  omega
                rw [if_pos hkeq] at ht
                rw [hk1']
                have hlen1 : (splitOnNl docText).length = 1 := hone
                have happ : applyEdit docText t 1 = docText ++ t := by
                  unfold applyEdit
                  rw [if_neg one_ne_zero, if_neg (by omega)]
                rw [happ, ← ht, hhdr]
                have hnl0 : countNl docText = 0 := by
                  have hsl := splitOnNl_length docText
                  omega
                have hmain := hasCopyright_after_insert language.comments cfg.useLineComment
                  (f cfg.data.holder cfg.data.year) (docText ++ ['\n']) []
                  (Or.inr ⟨docText, rfl⟩)
                  (by
                    rw [countNl_append]
                    have hc1 : countNl ['\n'] = 1 := by decide
                    omega)
                  hbodyp hwrap hlcnl hbsnl
                rw [show docText ++ ('\n' :: formatHeaderBody (f cfg.data.holder cfg.data.year)
                    language.comments cfg.useLineComment)
                  = (docText ++ ['\n']) ++ ((formatHeaderBody (f cfg.data.holder
                    cfg.data.year) language.comments cfg.useLineComment) ++ []) by
                  simp [List.append_assoc]]
                exact hmain
              · have hkne : calculateInsertLineIndex docText language ≠ lineCount docText := by
                  omega
                rw [if_neg hkne] at ht
                rw [hk1']
                have hlen2 : 1 < (splitOnNl docText).length := by
                  have h1' : lineCount docText = (splitOnNl docText).length := rfl
                  omega
                have happ : applyEdit docText t 1
                    = intercalateNl ((splitOnNl docText).take 1)
                      ++ '\n' :: (t ++ intercalateNl ((splitOnNl docText).drop 1)) := by
                  unfold applyEdit
                  rw [if_neg one_ne_zero, if_pos hlen2]
                cases hls : splitOnNl docText with
                | nil => exact absurd hls (splitOnNl_ne_nil docText)
                | cons l0 restls =>
                  have htake : intercalateNl ((splitOnNl docText).take 1) = l0 := by
                    rw [hls]
                    rfl
                  have hl0nl : '\n' ∉ l0 := splitOnNl_no_nl docText l0 (by rw [hls]; simp)
                  rw [happ, htake, ← ht, hhdr]
                  have hmain := hasCopyright_after_insert language.comments cfg.useLineComment
                    (f cfg.data.holder cfg.data.year) (l0 ++ ['\n'])
                    (intercalateNl ((splitOnNl docText).drop 1))
                    (Or.inr ⟨l0, rfl⟩)
                    (by
                      rw [countNl_append]
                      have h0 : countNl l0 = 0 := countNl_eq_zero l0 hl0nl
                      have hc1 : countNl ['\n'] = 1 := by decide
                      omega)
                    hbodyp hwrap hlcnl hbsnl
                  rw [show l0 ++ '\n' :: ((formatHeaderBody (f cfg.data.holder cfg.data.year)
                      language.comments cfg.useLineComment)
                      ++ intercalateNl ((splitOnNl docText).drop 1))
                    = (l0 ++ ['\n']) ++ ((formatHeaderBody (f cfg.data.holder cfg.data.year)
                      language.comments cfg.useLineComment)
                      ++ intercalateNl ((splitOnNl docText).drop 1)) by
                    simp [List.append_assoc]]
                  exact hmain
          have hsecond : insertedHeaderText cfg language
              (applyEdit docText t (calculateInsertLineIndex docText language)) = none := by
            unfold insertedHeaderText
            rw [hcm]
            simp [hdet]
          rw [hrun1]
          unfold insertHeader
          rw [hsecond]

/-- Configuration for the C4 witness. -/
def c4wCfg : ExtensionConfiguration := ⟨("bsd".toList), false, ⟨("h".toList), ("2020".toList)⟩⟩

/-- A language with a line-comment token, for the C4 witness. -/
def c4wLang : LanguageConfig := ⟨("foo".toList), none, ⟨some ("//".toList), none⟩⟩

/-- Witness for C4: a concrete run with a line-comment style is
idempotent. -/
theorem C4_pipeline_idempotent_witness :
    insertHeader c4wCfg c4wLang (insertHeader c4wCfg c4wLang ("x".toList))
      = insertHeader c4wCfg c4wLang ("x".toList) :=
  C4_pipeline_idempotent c4wCfg c4wLang ("x".toList)
    (Or.inl ⟨("//".toList), rfl, by decide⟩)
    (fun lc hlc => by
      rw [← Option.some.inj hlc]
      decide)
    (fun bs be hbc => by simp [c4wLang] at hbc)

end CopyrightInserter
